import Mathlib

/-!
# Template assembly and field deduplication of `generator/helpers.go`

A shallow embedding of `newTemplatePackage`, `newTemplateTable`,
`newTemplateColumn`, `newTemplateRelation` and `templateTable.uniqualizeFields`.

* Go strings are `String`; `template.HTML` is a Go string type, so it is a
  `String` as well.
* Go slices are `List`s.  `uniqualizeFields` has a value receiver, but the
  slices `t.Columns` and `t.Relations` share their backing arrays with the
  caller, so every write `t.Columns[i].FieldName = ...` is seen by the caller.
  The embedding returns the table holding the contents of those arrays after
  the pass.
* `index` (a `map[string]bool` that only ever stores `true`) is the list of
  its keys; `_, ok := index[name]` is membership.
* The two `for` loops labelled `couter` and `router` have no bound in the
  source.  They are embedded with a fuel argument and return `none` when the
  fuel runs out; the theorems show that this never happens for the fuel that
  `uniqualizeFields` supplies, and that more fuel never changes the result.
* `suffix` is a Go `int`.  It is a `Nat` here: the theorems bound it by the
  number of columns plus relations, so it never leaves the range of `int`.
  `%d` prints it in decimal, which is `Nat.repr`.
* Package `model` is not part of the sources.  What `helpers.go` uses of it
  is collected in `ModelPackage` and taken as a parameter.
-/

namespace generator

/-! ## Data model -/

/-- The struct `templateColumn`: stores column info. -/
structure templateColumn where
  FieldName : String
  FieldDBName : String
  FieldType : String
  FieldTag : String
  FieldComment : String
  IsSearchable : Bool
  SearchFieldType : String
deriving DecidableEq, Inhabited

/-- The struct `templateRelation`: stores relation info. -/
structure templateRelation where
  FieldName : String
  FieldType : String
  FieldTag : String
  FieldComment : String
deriving DecidableEq, Inhabited

/-- The struct `templateTable`: stores struct info. -/
structure templateTable where
  StructName : String
  StructTag : String
  TableName : String
  WithAlias : Bool
  TableAlias : String
  JoinAlias : String
  Columns : List templateColumn
  HasRelations : Bool
  Relations : List templateRelation
  SearchStructName : String
deriving DecidableEq, Inhabited

/-! ## Field deduplication -/

/-- The candidate of the `couter` loop: `fmt.Sprintf("%s%d", column.FieldName, suffix)`. -/
def columnCandidate (FieldName : String) (suffix : Nat) : String :=
  FieldName ++ Nat.repr suffix

/-- The candidate of the `router` loop: `fmt.Sprintf("%s%s", relation.FieldName,
model.NonUniqSuffix)` when `suffix == 0`, and
`fmt.Sprintf("%s%s%d", relation.FieldName, model.NonUniqSuffix, suffix)` otherwise. -/
def relationCandidate (NonUniqSuffix FieldName : String) (suffix : Nat) : String :=
  if suffix = 0 then FieldName ++ NonUniqSuffix
  else FieldName ++ NonUniqSuffix ++ Nat.repr suffix

/-- The loop labelled `couter`, entered with `suffix` and run for at most `fuel`
candidates.  `Columns` is the current content of `t.Columns`, which the loop
only reads; the loop leaves with the first `suffix` whose candidate no column
carries, and the caller then stores that candidate. -/
def couter (Columns : List templateColumn) (column : templateColumn) :
    Nat → Nat → Option Nat
  | 0, _ => none
  | fuel + 1, suffix =>
    let fieldName := columnCandidate column.FieldName suffix
    if Columns.any (fun col => col.FieldName == fieldName) then
      couter Columns column fuel (suffix + 1)
    else
      some suffix

/-- The loop labelled `router`, entered with `suffix` and run for at most `fuel`
candidates.  `Columns` and `Relations` are the current contents of `t.Columns`
and `t.Relations`; a candidate is rejected when a column carries it, and
otherwise when a relation carries it. -/
def router (NonUniqSuffix : String) (Columns : List templateColumn)
    (Relations : List templateRelation) (relation : templateRelation) :
    Nat → Nat → Option Nat
  | 0, _ => none
  | fuel + 1, suffix =>
    let fieldName := relationCandidate NonUniqSuffix relation.FieldName suffix
    if Columns.any (fun col => col.FieldName == fieldName) then
      router NonUniqSuffix Columns Relations relation fuel (suffix + 1)
    else if Relations.any (fun rel => rel.FieldName == fieldName) then
      router NonUniqSuffix Columns Relations relation fuel (suffix + 1)
    else
      some suffix

/-- The loop `for i, column := range t.Columns`.  At iteration `i` the slice
`t.Columns` is `done ++ todo`, where `done` holds the `i` elements already
visited (with the names the loop gave them) and `todo` the elements from `i`
on, which no iteration has written yet; `column` is the head of `todo`.
The result is the final slice content together with `index`. -/
def columnLoop (fuel : Nat) :
    List templateColumn → List templateColumn → List String →
      Option (List templateColumn × List String)
  | done, [], index => some (done, index)
  | done, column :: todo, index =>
    let fieldName := column.FieldName
    if ¬ fieldName ∈ index then
      columnLoop fuel (done ++ [column]) todo (fieldName :: index)
    else
      match couter (done ++ column :: todo) column fuel 1 with
      | none => none
      | some suffix =>
        columnLoop fuel
          (done ++ [{ column with FieldName := columnCandidate column.FieldName suffix }])
          todo index

/-- The loop `for i, relation := range t.Relations`, with `t.Relations` split
into `done ++ todo` as in `columnLoop`.  `Columns` is `t.Columns` as the column
loop left it; the relation loop never writes it. -/
def relationLoop (NonUniqSuffix : String) (fuel : Nat) (Columns : List templateColumn) :
    List templateRelation → List templateRelation → List String →
      Option (List templateRelation × List String)
  | done, [], index => some (done, index)
  | done, relation :: todo, index =>
    let fieldName := relation.FieldName
    if ¬ fieldName ∈ index then
      relationLoop NonUniqSuffix fuel Columns (done ++ [relation]) todo (fieldName :: index)
    else
      match router NonUniqSuffix Columns (done ++ relation :: todo) relation fuel 0 with
      | none => none
      | some suffix =>
        relationLoop NonUniqSuffix fuel Columns
          (done ++ [{ relation with
            FieldName := relationCandidate NonUniqSuffix relation.FieldName suffix }])
          todo index

/-- The method `uniqualizeFields` with each probing loop limited to `fuel` candidates:
the column loop starting from the empty `index`, then the relation loop
continuing with the same `index`.  Only the contents of the two slices
change. -/
def uniqualizeFieldsFuel (NonUniqSuffix : String) (fuel : Nat) (t : templateTable) :
    Option templateTable :=
  match columnLoop fuel [] t.Columns [] with
  | none => none
  | some (Columns, index) =>
    match relationLoop NonUniqSuffix fuel Columns [] t.Relations index with
    | none => none
    | some (Relations, _) => some { t with Columns := Columns, Relations := Relations }

/-- The method `templateTable.uniqualizeFields`.  The fuel, one more than the number
of columns and relations, is never used up (`uniqualizeFields_isSome`). -/
def uniqualizeFields (NonUniqSuffix : String) (t : templateTable) : Option templateTable :=
  uniqualizeFieldsFuel NonUniqSuffix (t.Columns.length + t.Relations.length + 1) t

/-- A column that carries only a field name. -/
def mkColumn (FieldName : String) : templateColumn :=
  { FieldName := FieldName, FieldDBName := "", FieldType := "", FieldTag := "",
    FieldComment := "", IsSearchable := false, SearchFieldType := "" }

/-- A relation that carries only a field name. -/
def mkRelation (FieldName : String) : templateRelation :=
  { FieldName := FieldName, FieldType := "", FieldTag := "", FieldComment := "" }

/-- A table that carries only the field names of its columns and relations. -/
def mkTable (Columns Relations : List String) : templateTable :=
  { StructName := "", StructTag := "", TableName := "", WithAlias := false,
    TableAlias := "", JoinAlias := "", Columns := Columns.map mkColumn,
    HasRelations := false, Relations := Relations.map mkRelation,
    SearchStructName := "" }

/-- The field names of a list of columns. -/
def columnNames (Columns : List templateColumn) : List String :=
  Columns.map (fun col => col.FieldName)

/-- The field names of a list of relations. -/
def relationNames (Relations : List templateRelation) : List String :=
  Relations.map (fun rel => rel.FieldName)

/-- The field names that the columns carry when the column loop visits column `i` of
`t`, given the table `t'` that the pass ends with: the columns before `i` have
their final names, those from `i` on still their derived names. -/
def namesAtColumn (t t' : templateTable) (i : Nat) : List String :=
  columnNames (t'.Columns.take i ++ t.Columns.drop i)

/-- The field names that the columns and relations carry when the relation loop visits
relation `i` of `t`, given the table `t'` that the pass ends with: all columns
and the relations before `i` have their final names, the relations from `i` on
still their derived names. -/
def namesAtRelation (t t' : templateTable) (i : Nat) : List String :=
  columnNames t'.Columns ++ relationNames (t'.Relations.take i ++ t.Relations.drop i)

/-- The field names of the columns followed by those of the relations. -/
def fieldNames (t : templateTable) : List String :=
  columnNames t.Columns ++ relationNames t.Relations

/-! ## Template assembly -/

/-- Modelled from the spec: the cardinality kind of a relation (`model.HasOne` and its
siblings), declared in package `model`, which is not part of the sources. -/
inductive RelationType where
  | HasOne
  | HasMany
  | ManyToMany
deriving DecidableEq, Inhabited

/-- Modelled from the spec: the struct `model.Column`, declared in package `model`, which
is not part of the sources: name, semantic type, nullability, primary-key flag
and foreign-key flag, under the field names the fixtures of `TestDo` use (`Type` is a
keyword, hence `Type_`). -/
structure Column where
  Name : String
  Type_ : String
  IsPK : Bool
  IsNullable : Bool
  IsFK : Bool
deriving DecidableEq, Inhabited

/-- Modelled from the spec: the struct `model.Relation`, declared in package `model`,
which is not part of the sources: cardinality kind, source and target (schema,
table, ordered columns), under the field names the fixtures of `TestDo` use (`Type` is a
keyword, hence `Type_`). -/
structure Relation where
  Type_ : RelationType
  SourceSchema : String
  SourceTable : String
  SourceColumns : List String
  TargetSchema : String
  TargetTable : String
  TargetColumns : List String
deriving DecidableEq, Inhabited

/-- Modelled from the spec: the struct `model.Table`, declared in package `model`, which
is not part of the sources: schema name, table name, ordered columns and
relations, under the field names the fixtures of `TestDo` use. -/
structure Table where
  Schema : String
  Name : String
  Columns : List Column
  Relations : List Relation
deriving DecidableEq, Inhabited

/-- Modelled from the spec: the struct `Options`, declared in a file of package
`generator` that is not part of the sources; these are the fields that
`helpers.go` reads. -/
structure Options where
  Package : String
  KeepPK : Bool
  View : Bool
  NoAlias : Bool
  NoDiscard : Bool
  SoftDelete : String
  StrictSearch : Bool
deriving DecidableEq, Inhabited

/-- Modelled from the spec: the functions, methods and constants of package `model` that
`helpers.go` calls.  The package is not part of the sources, so they are
parameters of the embedding; a method `x.M(a)` of `model.Table`,
`model.Column` or `model.Relation` is the field `TableM`, `ColumnM` or
`RelationM` applied to `x` and `a`. -/
structure ModelPackage where
  NonUniqSuffix : String
  UniqStrings : List String → List String
  TableImports : Table → List String
  TableSearchImports : Table → List String
  TableHasMultiplePKs : Table → Bool
  TableModelName : Table → String
  TableTableNameTag : Table → Bool → Bool → Bool → String
  TableTableName : Table → Bool → String
  TableAlias : Table → String
  TableJoinAlias : Table → String
  TableSearchModelName : Table → String
  ColumnStructFieldName : Column → Bool → String
  ColumnStructFieldType : Column → String
  ColumnStructFieldTag : Column → String → String
  ColumnComment : Column → String
  ColumnIsSearchable : Column → Bool
  ColumnSearchFieldType : Column → Bool → String
  RelationStructFieldName : Relation → String
  RelationStructFieldType : Relation → String
  RelationStructFieldTag : Relation → String
  RelationComment : Relation → String

/-- The struct `templatePackage`: stores package info. -/
structure templatePackage where
  Package : String
  HasImports : Bool
  Imports : List String
  Models : List templateTable
  HasSearchImports : Bool
  SearchImports : List String
deriving DecidableEq, Inhabited

/-- The call `fmt.Sprintf` with a format that wraps `%s` in a pair of backticks. -/
def backticked (s : String) : String :=
  "`" ++ s ++ "`"

/-- The function `newTemplateColumn`. -/
def newTemplateColumn (m : ModelPackage) (column : Column) (options : Options) :
    templateColumn :=
  { FieldName := m.ColumnStructFieldName column options.KeepPK
    FieldDBName := column.Name
    FieldType := m.ColumnStructFieldType column
    FieldTag := backticked (m.ColumnStructFieldTag column options.SoftDelete)
    FieldComment := m.ColumnComment column
    IsSearchable := m.ColumnIsSearchable column
    SearchFieldType := m.ColumnSearchFieldType column options.StrictSearch }

/-- The function `newTemplateRelation`. -/
def newTemplateRelation (m : ModelPackage) (relation : Relation) : templateRelation :=
  { FieldName := m.RelationStructFieldName relation
    FieldType := m.RelationStructFieldType relation
    FieldTag := backticked (m.RelationStructFieldTag relation)
    FieldComment := m.RelationComment relation }

/-- The loop `for i, x := range xs { out[i] = f(x) }` from index `i` on, over the
elements `xs` still to visit; `out` is the slice being filled. -/
def assignLoop {α β : Type} (f : α → β) : Nat → List α → List β → List β
  | _, [], out => out
  | i, x :: xs, out => assignLoop f (i + 1) xs (out.set i (f x))

/-- The function `newTemplateTable`.  `options` is passed by value, so forcing `KeepPK`
changes the local copy only; `make([]T, n)` is `n` zero values. -/
def newTemplateTable (m : ModelPackage) (table : Table) (options : Options) :
    templateTable :=
  let options := if m.TableHasMultiplePKs table then { options with KeepPK := true } else options
  let columns := assignLoop (fun column => newTemplateColumn m column options) 0
    table.Columns (List.replicate table.Columns.length default)
  let relations := assignLoop (fun relation => newTemplateRelation m relation) 0
    table.Relations (List.replicate table.Relations.length default)
  { StructName := m.TableModelName table
    StructTag := backticked
      (m.TableTableNameTag table options.View options.NoAlias options.NoDiscard)
    TableName := m.TableTableName table false
    WithAlias := !options.NoAlias
    TableAlias := m.TableAlias table
    JoinAlias := m.TableJoinAlias table
    Columns := columns
    HasRelations := decide (relations.length > 0)
    Relations := relations
    SearchStructName := m.TableSearchModelName table }

/-- The loop of `newTemplatePackage` from index `i` on, over the tables still to visit.
The state is `mImports`, `sImports` and `models`.  `models[i]` is assigned the
new table and `uniqualizeFields` then runs on it: the method works on a copy of
the struct, whose slices are those of `models[i]`, so `models[i]` holds the
renamed fields afterwards. -/
def packageLoop (m : ModelPackage) (options : Options) :
    Nat → List Table → List String × List String × List templateTable →
      Option (List String × List String × List templateTable)
  | _, [], state => some state
  | i, table :: tables, (mImports, sImports, models) =>
    let mImports := mImports ++ m.TableImports table
    let sImports := sImports ++ m.TableSearchImports table
    let models := models.set i (newTemplateTable m table options)
    match uniqualizeFields m.NonUniqSuffix (models.getD i default) with
    | none => none
    | some t => packageLoop m options (i + 1) tables (mImports, sImports, models.set i t)

/-- The function `newTemplatePackage`: creates a package with multiple models. -/
def newTemplatePackage (m : ModelPackage) (tables : List Table) (options : Options) :
    Option templatePackage :=
  match packageLoop m options 0 tables
      ([], [], List.replicate tables.length default) with
  | none => none
  | some (mImports, sImports, models) =>
    let mImports := m.UniqStrings mImports
    let sImports := m.UniqStrings sImports
    some
      { Package := options.Package
        HasImports := decide (mImports.length > 0)
        Imports := mImports
        Models := models
        HasSearchImports := options.StrictSearch && decide (sImports.length > 0)
        SearchImports := sImports }

/-- An example instance of `ModelPackage`, used to apply theorems at concrete inputs.  It
stands in for package `model` there and does not claim to reproduce it: a
primary key is named `ID` unless it is kept, a table has multiple primary keys
when more than one column is flagged, tags and comments are empty. -/
def sampleModel : ModelPackage :=
  { NonUniqSuffix := "Rel"
    UniqStrings := List.dedup
    TableImports := fun _ => []
    TableSearchImports := fun _ => []
    TableHasMultiplePKs := fun table =>
      decide ((table.Columns.filter (fun column => column.IsPK)).length > 1)
    TableModelName := fun table => table.Name
    TableTableNameTag := fun table _ _ _ => table.Name
    TableTableName := fun table _ => table.Name
    TableAlias := fun _ => "t"
    TableJoinAlias := fun table => table.Name
    TableSearchModelName := fun table => table.Name ++ "Search"
    ColumnStructFieldName := fun column keepPK =>
      if column.IsPK && !keepPK then "ID" else column.Name
    ColumnStructFieldType := fun column => column.Type_
    ColumnStructFieldTag := fun column _ => column.Name
    ColumnComment := fun _ => ""
    ColumnIsSearchable := fun _ => true
    ColumnSearchFieldType := fun column _ => column.Type_
    RelationStructFieldName := fun relation => relation.TargetTable
    RelationStructFieldType := fun relation => relation.TargetTable
    RelationStructFieldTag := fun _ => ""
    RelationComment := fun _ => "" }

/-- A column of the examples: a name and the primary-key flag. -/
def sampleColumn (Name : String) (IsPK : Bool) : Column :=
  { Name := Name, Type_ := "int8", IsPK := IsPK, IsNullable := false, IsFK := false }

/-- A table of the examples with the composite primary key (`a`, `b`) and a column `c`. -/
def linkTable : Table :=
  { Schema := "public", Name := "links",
    Columns := [sampleColumn "a" true, sampleColumn "b" true, sampleColumn "c" false],
    Relations := [] }

/-- A table of the examples with the primary key `a` and the columns `ID` and `c`. -/
def plainTable : Table :=
  { Schema := "public", Name := "plain",
    Columns := [sampleColumn "a" true, sampleColumn "ID" false, sampleColumn "c" false],
    Relations := [] }

/-- Options of the examples, with the given `KeepPK`. -/
def sampleOptions (KeepPK : Bool) : Options :=
  { Package := "model", KeepPK := KeepPK, View := false, NoAlias := false,
    NoDiscard := false, SoftDelete := "", StrictSearch := false }

/-- The table `user` of `TestDo`.  The constants `model.PublicSchema`, `model.TypeInt8`,
`model.TypeVarchar` and `model.TypeTimestamp` are declared in package `model`,
which is not part of the sources; they are written here as `public`, `int8`,
`varchar` and `timestamp`. -/
def usersTable : Table :=
  { Schema := "public", Name := "users",
    Columns :=
      [{ Name := "userId", Type_ := "int8", IsPK := true, IsNullable := false, IsFK := false },
       { Name := "email", Type_ := "varchar", IsPK := false, IsNullable := true, IsFK := false },
       { Name := "locationId", Type_ := "int8", IsPK := false, IsNullable := false,
         IsFK := true },
       { Name := "companyId", Type_ := "int8", IsPK := false, IsNullable := false,
         IsFK := true },
       { Name := "createdAt", Type_ := "timestamp", IsPK := false, IsNullable := false,
         IsFK := false }],
    Relations :=
      [{ Type_ := RelationType.HasOne, SourceSchema := "public", SourceTable := "users",
         SourceColumns := ["locationId"], TargetSchema := "geo", TargetTable := "locations",
         TargetColumns := ["locationId"] },
       { Type_ := RelationType.HasOne, SourceSchema := "public", SourceTable := "users",
         SourceColumns := ["companyId"], TargetSchema := "public",
         TargetTable := "companies", TargetColumns := ["companyId"] }] }

/-! ## Auxiliary definitions for the proofs -/

/-- The value of a list of decimal digit characters, most significant first. -/
def digitsValue (ds : List Char) : Nat :=
  ds.foldl (fun acc c => 10 * acc + (c.toNat - 48)) 0

/-- A probing loop in general: from `suffix` on, skip the suffixes that are `taken`. -/
def probe (taken : Nat → Bool) : Nat → Nat → Option Nat
  | 0, _ => none
  | fuel + 1, suffix => if taken suffix then probe taken fuel (suffix + 1) else some suffix

/-- The outcome `out` of one loop iteration for the field name `N`: when the name is
not `claimed` it is kept; when it is, `out` is the candidate of the least suffix
from `start` on that no name of `cur` carries. -/
def Renamed (cand : Nat → String) (start : Nat) (claimed : Prop) (cur : List String)
    (N out : String) : Prop :=
  (¬ claimed ∧ out = N) ∨
  (claimed ∧ ∃ k, start ≤ k ∧ out = cand k ∧ cand k ∉ cur ∧
    ∀ j, start ≤ j → j < k → cand j ∈ cur)

/-! ## Decimal printing -/

theorem digitChar_value : ∀ d, d < 10 → (Nat.digitChar d).toNat - 48 = d := by decide

theorem toDigitsCore_spec (fuel : Nat) : ∀ (n : Nat) (ds : List Char), n < fuel →
    ∃ pre, Nat.toDigitsCore 10 fuel n ds = pre ++ ds ∧ pre ≠ [] ∧ digitsValue pre = n := by
  induction fuel with
  | zero => intro n ds h; omega
  | succ fuel ih =>
    intro n ds h
    by_cases h0 : n / 10 = 0
    · refine ⟨[Nat.digitChar (n % 10)], ?_, by simp, ?_⟩
      · simp [Nat.toDigitsCore, h0]
      · have := digitChar_value (n % 10) (Nat.mod_lt _ (by norm_num))
        simp [digitsValue, this]; omega
    · obtain ⟨pre, hpre, _, hval⟩ := ih (n / 10) (Nat.digitChar (n % 10) :: ds) (by omega)
      refine ⟨pre ++ [Nat.digitChar (n % 10)], ?_, by simp, ?_⟩
      · simp [Nat.toDigitsCore, h0, hpre]
      · have := digitChar_value (n % 10) (Nat.mod_lt _ (by norm_num))
        unfold digitsValue at hval ⊢
        rw [List.foldl_append, hval]
        simp [this]; omega

theorem repr_value (n : Nat) : digitsValue (Nat.repr n).data = n := by
  obtain ⟨pre, hpre, _, hval⟩ := toDigitsCore_spec (n + 1) n [] (by omega)
  simp [Nat.repr, Nat.toDigits, hpre, List.asString, hval]

theorem repr_injective : Function.Injective Nat.repr := by
  intro a b h
  have := congrArg (fun s => digitsValue s.data) h
  simpa [repr_value] using this

theorem repr_data_ne_nil (n : Nat) : (Nat.repr n).data ≠ [] := by
  obtain ⟨pre, hpre, hne, _⟩ := toDigitsCore_spec (n + 1) n [] (by omega)
  simpa [Nat.repr, Nat.toDigits, hpre, List.asString] using hne

theorem append_left_cancel {s a b : String} (h : s ++ a = s ++ b) : a = b := by
  have := congrArg String.data h
  simp only [String.data_append, List.append_cancel_left_eq] at this
  exact String.ext this

theorem append_ne_self {s a : String} (h : a.data ≠ []) : s ++ a ≠ s := by
  intro e
  have := congrArg String.data e
  simp only [String.data_append, List.append_right_eq_self] at this
  exact h this

theorem columnCandidate_injective (base : String) :
    Function.Injective (columnCandidate base) := by
  intro a b h
  exact repr_injective (append_left_cancel h)

theorem columnCandidate_ne_self (base : String) (k : Nat) : columnCandidate base k ≠ base :=
  append_ne_self (repr_data_ne_nil k)

theorem relationCandidate_injective (marker base : String) :
    Function.Injective (relationCandidate marker base) := by
  intro a b h
  unfold relationCandidate at h
  by_cases ha : a = 0 <;> by_cases hb : b = 0 <;> simp only [ha, hb, if_true, if_false] at h
  · rw [ha, hb]
  · exact absurd h.symm (append_ne_self (repr_data_ne_nil b))
  · exact absurd h (append_ne_self (repr_data_ne_nil a))
  · exact repr_injective (append_left_cancel h)

/-! ## Probing loops -/

theorem probe_some {taken : Nat → Bool} : ∀ (fuel s k : Nat), probe taken fuel s = some k →
    s ≤ k ∧ k < s + fuel ∧ taken k = false ∧ ∀ j, s ≤ j → j < k → taken j = true := by
  intro fuel
  induction fuel with
  | zero => intro s k h; simp [probe] at h
  | succ fuel ih =>
    intro s k h
    rw [probe] at h
    by_cases ht : taken s = true
    · rw [if_pos ht] at h
      obtain ⟨h1, h2, h3, h4⟩ := ih (s + 1) k h
      refine ⟨by omega, by omega, h3, ?_⟩
      intro j hj hjk
      by_cases e : j = s
      · rw [e]; exact ht
      · exact h4 j (by omega) hjk
    · rw [if_neg ht] at h
      cases h
      exact ⟨le_refl _, by omega, by simpa using ht, fun j hj hjk => by omega⟩

theorem probe_none {taken : Nat → Bool} : ∀ (fuel s : Nat), probe taken fuel s = none →
    ∀ j, s ≤ j → j < s + fuel → taken j = true := by
  intro fuel
  induction fuel with
  | zero => intro s _ j h1 h2; omega
  | succ fuel ih =>
    intro s h j h1 h2
    rw [probe] at h
    by_cases ht : taken s = true
    · rw [if_pos ht] at h
      by_cases e : j = s
      · rw [e]; exact ht
      · exact ih (s + 1) h j (by omega) (by omega)
    · rw [if_neg ht] at h; cases h

theorem probe_least {taken : Nat → Bool} : ∀ (fuel s k : Nat), s ≤ k → k < s + fuel →
    taken k = false → (∀ j, s ≤ j → j < k → taken j = true) → probe taken fuel s = some k := by
  intro fuel
  induction fuel with
  | zero => intro s k h1 h2; omega
  | succ fuel ih =>
    intro s k h1 h2 h3 h4
    rw [probe]
    by_cases e : s = k
    · subst e; simp [h3]
    · rw [if_pos (h4 s (le_refl _) (by omega))]
      exact ih (s + 1) k (by omega) (by omega) h3 (fun j hj hjk => h4 j (by omega) hjk)

theorem probe_mono {taken : Nat → Bool} {fuel fuel' s k : Nat}
    (h : probe taken fuel s = some k) (hle : fuel ≤ fuel') : probe taken fuel' s = some k := by
  obtain ⟨h1, h2, h3, h4⟩ := probe_some fuel s k h
  exact probe_least fuel' s k h1 (by omega) h3 h4

/-- Pigeonhole: `m` consecutive candidates that all occur in `names` are at most as
many as the names. -/
theorem taken_run_le {cand : Nat → String} (hinj : Function.Injective cand)
    (names : List String) (s m : Nat) (h : ∀ j, s ≤ j → j < s + m → cand j ∈ names) :
    m ≤ names.length := by
  have hnd : ((List.range' s m).map cand).Nodup :=
    (List.nodup_range' s m).map hinj
  have hsub : (List.range' s m).map cand ⊆ names := by
    intro x hx
    obtain ⟨j, hj, rfl⟩ := List.mem_map.1 hx
    rw [List.mem_range'_1] at hj
    exact h j hj.1 hj.2
  simpa using (hnd.subperm hsub).length_le

/-- Pigeonhole with one name set aside: when `names` also holds a name that is no
candidate, the run is strictly shorter than the list of names. -/
theorem taken_run_lt {cand : Nat → String} (hinj : Function.Injective cand)
    (names : List String) (s m : Nat) (own : String) (hown : own ∈ names)
    (hne : ∀ j, cand j ≠ own) (h : ∀ j, s ≤ j → j < s + m → cand j ∈ names) :
    m < names.length := by
  have hnd : (own :: (List.range' s m).map cand).Nodup := by
    refine List.nodup_cons.2 ⟨?_, (List.nodup_range' s m).map hinj⟩
    intro hx
    obtain ⟨j, _, hj⟩ := List.mem_map.1 hx
    exact hne j hj
  have hsub : own :: (List.range' s m).map cand ⊆ names := by
    intro x hx
    rcases List.mem_cons.1 hx with rfl | hx
    · exact hown
    · obtain ⟨j, hj, rfl⟩ := List.mem_map.1 hx
      rw [List.mem_range'_1] at hj
      exact h j hj.1 hj.2
  have := (hnd.subperm hsub).length_le
  simp at this
  omega

theorem any_column_iff (Columns : List templateColumn) (x : String) :
    Columns.any (fun col => col.FieldName == x) = true ↔ x ∈ columnNames Columns := by
  simp only [columnNames, List.any_eq_true, beq_iff_eq, List.mem_map]

theorem any_relation_iff (Relations : List templateRelation) (x : String) :
    Relations.any (fun rel => rel.FieldName == x) = true ↔ x ∈ relationNames Relations := by
  simp only [relationNames, List.any_eq_true, beq_iff_eq, List.mem_map]

theorem couter_eq_probe (Columns : List templateColumn) (column : templateColumn) :
    ∀ fuel s, couter Columns column fuel s =
      probe (fun j => decide (columnCandidate column.FieldName j ∈ columnNames Columns)) fuel s := by
  intro fuel
  induction fuel with
  | zero => intro s; rfl
  | succ fuel ih =>
    intro s
    simp only [couter, probe, ih, any_column_iff, decide_eq_true_eq]

theorem router_eq_probe (marker : String) (Columns : List templateColumn)
    (Relations : List templateRelation) (relation : templateRelation) :
    ∀ fuel s, router marker Columns Relations relation fuel s =
      probe (fun j => decide (relationCandidate marker relation.FieldName j ∈
        columnNames Columns ++ relationNames Relations)) fuel s := by
  intro fuel
  induction fuel with
  | zero => intro s; rfl
  | succ fuel ih =>
    intro s
    simp only [router, probe, ih, any_column_iff, any_relation_iff, decide_eq_true_eq,
      List.mem_append]
    by_cases hc : relationCandidate marker relation.FieldName s ∈ columnNames Columns
    · simp [hc]
    · simp [hc]

/-! ## One iteration, as a relation between the old and the new name -/

theorem Renamed.congr {cand : Nat → String} {start : Nat} {p q : Prop} {cur cur' : List String}
    {N out : String} (h : Renamed cand start p cur N out) (hpq : p ↔ q) (hcur : cur = cur') :
    Renamed cand start q cur' N out := by
  subst hcur
  rcases h with ⟨h1, h2⟩ | ⟨h1, h2⟩
  · exact Or.inl ⟨fun hq => h1 (hpq.2 hq), h2⟩
  · exact Or.inr ⟨hpq.1 h1, h2⟩

theorem columnLoop_spec (fuel : Nat) :
    ∀ (todo done : List templateColumn) (index : List String)
      (r : List templateColumn × List String),
    columnLoop fuel done todo index = some r →
    ∃ news, r.1 = done ++ news ∧ news.length = todo.length ∧
      (∀ s, s ∈ r.2 ↔ s ∈ index ∨ s ∈ columnNames todo) ∧
      ∀ i c, todo[i]? = some c → ∃ c', news[i]? = some c' ∧
        c' = { c with FieldName := c'.FieldName } ∧
        Renamed (columnCandidate c.FieldName) 1
          (c.FieldName ∈ index ∨ c.FieldName ∈ columnNames (todo.take i))
          (columnNames (done ++ news.take i ++ todo.drop i)) c.FieldName c'.FieldName := by
  intro todo
  induction todo with
  | nil =>
    intro done index r h
    simp only [columnLoop, Option.some.injEq] at h
    subst h
    exact ⟨[], by simp, rfl, by simp [columnNames], by simp⟩
  | cons column todo ih =>
    intro done index r h
    rw [columnLoop] at h
    by_cases hidx : column.FieldName ∈ index
    · simp only [hidx, not_true_eq_false, if_false] at h
      cases hc : couter (done ++ column :: todo) column fuel 1 with
      | none => rw [hc] at h; cases h
      | some k =>
        rw [hc] at h
        simp only at h
        obtain ⟨news, h1, h2, h3, h4⟩ := ih _ _ _ h
        rw [couter_eq_probe] at hc
        obtain ⟨p1, _, p3, p4⟩ := probe_some _ _ _ hc
        refine ⟨{ column with FieldName := columnCandidate column.FieldName k } :: news,
          by simpa using h1, by simp [h2], ?_, ?_⟩
        · intro s
          rw [h3 s]
          simp only [columnNames, List.map_cons, List.mem_cons]
          constructor
          · rintro (h | h)
            · exact Or.inl h
            · exact Or.inr (Or.inr h)
          · rintro (h | h | h)
            · exact Or.inl h
            · exact Or.inl (h ▸ hidx)
            · exact Or.inr h
        · intro i c hi
          cases i with
          | zero =>
            simp only [List.getElem?_cons_zero, Option.some.injEq] at hi
            refine ⟨{ column with FieldName := columnCandidate column.FieldName k }, by simp,
              by rw [← hi], ?_⟩
            rw [← hi]
            refine Or.inr ⟨Or.inl hidx, k, p1, rfl, ?_, ?_⟩
            · simpa using p3
            · intro j hj hjk
              simpa using p4 j hj hjk
          | succ i =>
            simp only [List.getElem?_cons_succ] at hi
            obtain ⟨c', e1, e2, e3⟩ := h4 i c hi
            refine ⟨c', by simpa using e1, e2, e3.congr ?_ (by simp)⟩
            simp only [columnNames, List.take_succ_cons, List.map_cons, List.mem_cons]
            constructor
            · rintro (h | h)
              · exact Or.inl h
              · exact Or.inr (Or.inr h)
            · rintro (h | h | h)
              · exact Or.inl h
              · exact Or.inl (h ▸ hidx)
              · exact Or.inr h
    · simp only [hidx, not_false_eq_true, if_true] at h
      obtain ⟨news, h1, h2, h3, h4⟩ := ih _ _ _ h
      refine ⟨column :: news, by simpa using h1, by simp [h2], ?_, ?_⟩
      · intro s
        rw [h3 s]
        simp only [columnNames, List.map_cons, List.mem_cons]
        tauto
      · intro i c hi
        cases i with
        | zero =>
          simp only [List.getElem?_cons_zero, Option.some.injEq] at hi
          refine ⟨column, by simp, by rw [← hi], ?_⟩
          rw [← hi]
          refine Or.inl ⟨?_, rfl⟩
          simp [columnNames, hidx]
        | succ i =>
          simp only [List.getElem?_cons_succ] at hi
          obtain ⟨c', e1, e2, e3⟩ := h4 i c hi
          refine ⟨c', by simpa using e1, e2, e3.congr ?_ (by simp)⟩
          simp only [columnNames, List.take_succ_cons, List.map_cons, List.mem_cons]
          tauto

theorem relationLoop_spec (marker : String) (fuel : Nat) (Columns : List templateColumn) :
    ∀ (todo done : List templateRelation) (index : List String)
      (r : List templateRelation × List String),
    relationLoop marker fuel Columns done todo index = some r →
    ∃ news, r.1 = done ++ news ∧ news.length = todo.length ∧
      (∀ s, s ∈ r.2 ↔ s ∈ index ∨ s ∈ relationNames todo) ∧
      ∀ i c, todo[i]? = some c → ∃ c', news[i]? = some c' ∧
        c' = { c with FieldName := c'.FieldName } ∧
        Renamed (relationCandidate marker c.FieldName) 0
          (c.FieldName ∈ index ∨ c.FieldName ∈ relationNames (todo.take i))
          (columnNames Columns ++ relationNames (done ++ news.take i ++ todo.drop i))
          c.FieldName c'.FieldName := by
  intro todo
  induction todo with
  | nil =>
    intro done index r h
    simp only [relationLoop, Option.some.injEq] at h
    subst h
    exact ⟨[], by simp, rfl, by simp [relationNames], by simp⟩
  | cons relation todo ih =>
    intro done index r h
    rw [relationLoop] at h
    by_cases hidx : relation.FieldName ∈ index
    · simp only [hidx, not_true_eq_false, if_false] at h
      cases hc : router marker Columns (done ++ relation :: todo) relation fuel 0 with
      | none => rw [hc] at h; cases h
      | some k =>
        rw [hc] at h
        simp only at h
        obtain ⟨news, h1, h2, h3, h4⟩ := ih _ _ _ h
        rw [router_eq_probe] at hc
        obtain ⟨p1, _, p3, p4⟩ := probe_some _ _ _ hc
        refine ⟨{ relation with FieldName := relationCandidate marker relation.FieldName k } ::
          news, by simpa using h1, by simp [h2], ?_, ?_⟩
        · intro s
          rw [h3 s]
          simp only [relationNames, List.map_cons, List.mem_cons]
          constructor
          · rintro (h | h)
            · exact Or.inl h
            · exact Or.inr (Or.inr h)
          · rintro (h | h | h)
            · exact Or.inl h
            · exact Or.inl (h ▸ hidx)
            · exact Or.inr h
        · intro i c hi
          cases i with
          | zero =>
            simp only [List.getElem?_cons_zero, Option.some.injEq] at hi
            refine ⟨{ relation with
              FieldName := relationCandidate marker relation.FieldName k }, by simp,
              by rw [← hi], ?_⟩
            rw [← hi]
            refine Or.inr ⟨Or.inl hidx, k, p1, rfl, ?_, ?_⟩
            · simpa using p3
            · intro j hj hjk
              simpa using p4 j hj hjk
          | succ i =>
            simp only [List.getElem?_cons_succ] at hi
            obtain ⟨c', e1, e2, e3⟩ := h4 i c hi
            refine ⟨c', by simpa using e1, e2, e3.congr ?_ (by simp)⟩
            simp only [relationNames, List.take_succ_cons, List.map_cons, List.mem_cons]
            constructor
            · rintro (h | h)
              · exact Or.inl h
              · exact Or.inr (Or.inr h)
            · rintro (h | h | h)
              · exact Or.inl h
              · exact Or.inl (h ▸ hidx)
              · exact Or.inr h
    · simp only [hidx, not_false_eq_true, if_true] at h
      obtain ⟨news, h1, h2, h3, h4⟩ := ih _ _ _ h
      refine ⟨relation :: news, by simpa using h1, by simp [h2], ?_, ?_⟩
      · intro s
        rw [h3 s]
        simp only [relationNames, List.map_cons, List.mem_cons]
        tauto
      · intro i c hi
        cases i with
        | zero =>
          simp only [List.getElem?_cons_zero, Option.some.injEq] at hi
          refine ⟨relation, by simp, by rw [← hi], ?_⟩
          rw [← hi]
          refine Or.inl ⟨?_, rfl⟩
          simp [relationNames, hidx]
        | succ i =>
          simp only [List.getElem?_cons_succ] at hi
          obtain ⟨c', e1, e2, e3⟩ := h4 i c hi
          refine ⟨c', by simpa using e1, e2, e3.congr ?_ (by simp)⟩
          simp only [relationNames, List.take_succ_cons, List.map_cons, List.mem_cons]
          tauto

/-! ## The loops never run out of fuel, and more fuel changes nothing -/

theorem couter_isSome (Columns : List templateColumn) (column : templateColumn) (fuel : Nat)
    (h : Columns.length < fuel) : ∃ k, couter Columns column fuel 1 = some k := by
  cases hc : couter Columns column fuel 1 with
  | some k => exact ⟨k, rfl⟩
  | none =>
    rw [couter_eq_probe] at hc
    have := taken_run_le (columnCandidate_injective column.FieldName) (columnNames Columns) 1 fuel
      (fun j h1 h2 => by simpa using probe_none _ _ hc j h1 h2)
    simp [columnNames] at this
    omega

theorem router_isSome (marker : String) (Columns : List templateColumn)
    (Relations : List templateRelation) (relation : templateRelation) (fuel : Nat)
    (h : Columns.length + Relations.length < fuel) :
    ∃ k, router marker Columns Relations relation fuel 0 = some k := by
  cases hc : router marker Columns Relations relation fuel 0 with
  | some k => exact ⟨k, rfl⟩
  | none =>
    rw [router_eq_probe] at hc
    have := taken_run_le (relationCandidate_injective marker relation.FieldName)
      (columnNames Columns ++ relationNames Relations) 0 fuel
      (fun j h1 h2 => by simpa using probe_none _ _ hc j h1 h2)
    simp [columnNames, relationNames] at this
    omega

theorem columnLoop_isSome (fuel : Nat) :
    ∀ (todo done : List templateColumn) (index : List String),
    done.length + todo.length < fuel → ∃ r, columnLoop fuel done todo index = some r := by
  intro todo
  induction todo with
  | nil => intro done index _; exact ⟨_, rfl⟩
  | cons column todo ih =>
    intro done index h
    simp only [List.length_cons] at h
    rw [columnLoop]
    by_cases hidx : column.FieldName ∈ index
    · simp only [hidx, not_true_eq_false, if_false]
      obtain ⟨k, hk⟩ := couter_isSome (done ++ column :: todo) column fuel (by simp; omega)
      rw [hk]
      exact ih _ _ (by simp; omega)
    · simp only [hidx, not_false_eq_true, if_true]
      exact ih _ _ (by simp; omega)

theorem relationLoop_isSome (marker : String) (fuel : Nat) (Columns : List templateColumn) :
    ∀ (todo done : List templateRelation) (index : List String),
    Columns.length + (done.length + todo.length) < fuel →
    ∃ r, relationLoop marker fuel Columns done todo index = some r := by
  intro todo
  induction todo with
  | nil => intro done index _; exact ⟨_, rfl⟩
  | cons relation todo ih =>
    intro done index h
    simp only [List.length_cons] at h
    rw [relationLoop]
    by_cases hidx : relation.FieldName ∈ index
    · simp only [hidx, not_true_eq_false, if_false]
      obtain ⟨k, hk⟩ := router_isSome marker Columns (done ++ relation :: todo) relation fuel
        (by simp; omega)
      rw [hk]
      exact ih _ _ (by simp; omega)
    · simp only [hidx, not_false_eq_true, if_true]
      exact ih _ _ (by simp; omega)

theorem columnLoop_mono {fuel fuel' : Nat} (hle : fuel ≤ fuel') :
    ∀ (todo done : List templateColumn) (index : List String)
      (r : List templateColumn × List String),
    columnLoop fuel done todo index = some r → columnLoop fuel' done todo index = some r := by
  intro todo
  induction todo with
  | nil => intro done index r h; simpa [columnLoop] using h
  | cons column todo ih =>
    intro done index r h
    rw [columnLoop] at h ⊢
    by_cases hidx : column.FieldName ∈ index
    · simp only [hidx, not_true_eq_false, if_false] at h ⊢
      cases hc : couter (done ++ column :: todo) column fuel 1 with
      | none => rw [hc] at h; cases h
      | some k =>
        rw [hc] at h
        have hc' : couter (done ++ column :: todo) column fuel' 1 = some k := by
          rw [couter_eq_probe] at hc ⊢
          exact probe_mono hc hle
        rw [hc']
        exact ih _ _ _ h
    · simp only [hidx, not_false_eq_true, if_true] at h ⊢
      exact ih _ _ _ h

theorem relationLoop_mono (marker : String) (Columns : List templateColumn) {fuel fuel' : Nat}
    (hle : fuel ≤ fuel') :
    ∀ (todo done : List templateRelation) (index : List String)
      (r : List templateRelation × List String),
    relationLoop marker fuel Columns done todo index = some r →
    relationLoop marker fuel' Columns done todo index = some r := by
  intro todo
  induction todo with
  | nil => intro done index r h; simpa [relationLoop] using h
  | cons relation todo ih =>
    intro done index r h
    rw [relationLoop] at h ⊢
    by_cases hidx : relation.FieldName ∈ index
    · simp only [hidx, not_true_eq_false, if_false] at h ⊢
      cases hc : router marker Columns (done ++ relation :: todo) relation fuel 0 with
      | none => rw [hc] at h; cases h
      | some k =>
        rw [hc] at h
        have hc' : router marker Columns (done ++ relation :: todo) relation fuel' 0 = some k := by
          rw [router_eq_probe] at hc ⊢
          exact probe_mono hc hle
        rw [hc']
        exact ih _ _ _ h
    · simp only [hidx, not_false_eq_true, if_true] at h ⊢
      exact ih _ _ _ h

/-! ## The whole pass -/

theorem uniqualizeFieldsFuel_some {marker : String} {fuel : Nat} {t t' : templateTable}
    (h : uniqualizeFieldsFuel marker fuel t = some t') :
    ∃ index index', columnLoop fuel [] t.Columns [] = some (t'.Columns, index) ∧
      relationLoop marker fuel t'.Columns [] t.Relations index = some (t'.Relations, index') ∧
      t' = { t with Columns := t'.Columns, Relations := t'.Relations } := by
  unfold uniqualizeFieldsFuel at h
  cases hc : columnLoop fuel [] t.Columns [] with
  | none => rw [hc] at h; cases h
  | some rc =>
    obtain ⟨cols, index⟩ := rc
    rw [hc] at h
    simp only at h
    cases hr : relationLoop marker fuel cols [] t.Relations index with
    | none => rw [hr] at h; cases h
    | some rr =>
      obtain ⟨rels, index'⟩ := rr
      rw [hr] at h
      simp only [Option.some.injEq] at h
      subst h
      exact ⟨index, index', rfl, hr, rfl⟩

theorem columnLoop_length {fuel : Nat} {todo done : List templateColumn} {index : List String}
    {r : List templateColumn × List String} (h : columnLoop fuel done todo index = some r) :
    r.1.length = done.length + todo.length := by
  obtain ⟨news, h1, h2, _⟩ := columnLoop_spec fuel todo done index r h
  rw [h1, List.length_append, h2]

theorem relationLoop_length {marker : String} {fuel : Nat} {Columns : List templateColumn}
    {todo done : List templateRelation} {index : List String}
    {r : List templateRelation × List String}
    (h : relationLoop marker fuel Columns done todo index = some r) :
    r.1.length = done.length + todo.length := by
  obtain ⟨news, h1, h2, _⟩ := relationLoop_spec marker fuel Columns todo done index r h
  rw [h1, List.length_append, h2]

theorem uniqualizeFieldsFuel_isSome (marker : String) (fuel : Nat) (t : templateTable)
    (h : t.Columns.length + t.Relations.length < fuel) :
    ∃ t', uniqualizeFieldsFuel marker fuel t = some t' := by
  obtain ⟨rc, hc⟩ := columnLoop_isSome fuel t.Columns [] [] (by simp; omega)
  have hlen := columnLoop_length hc
  obtain ⟨rr, hr⟩ := relationLoop_isSome marker fuel rc.1 t.Relations [] rc.2
    (by simp at hlen ⊢; omega)
  refine ⟨{ t with Columns := rc.1, Relations := rr.1 }, ?_⟩
  unfold uniqualizeFieldsFuel
  rw [hc]
  simp only
  rw [hr]

theorem uniqualizeFields_isSome (marker : String) (t : templateTable) :
    ∃ t', uniqualizeFields marker t = some t' :=
  uniqualizeFieldsFuel_isSome marker _ t (Nat.lt_succ_self _)

theorem uniqualizeFieldsFuel_mono {marker : String} {fuel fuel' : Nat} {t t' : templateTable}
    (h : uniqualizeFieldsFuel marker fuel t = some t') (hle : fuel ≤ fuel') :
    uniqualizeFieldsFuel marker fuel' t = some t' := by
  obtain ⟨index, index', hc, hr, ht⟩ := uniqualizeFieldsFuel_some h
  have hc' := columnLoop_mono hle _ _ _ _ hc
  have hr' := relationLoop_mono marker t'.Columns hle _ _ _ _ hr
  unfold uniqualizeFieldsFuel
  rw [hc']
  simp only
  rw [hr']
  simp only
  rw [← ht]

theorem uniqualizeFieldsFuel_eq {marker : String} {t t' : templateTable}
    (h : uniqualizeFields marker t = some t') (fuel : Nat)
    (hf : t.Columns.length + t.Relations.length < fuel) :
    uniqualizeFieldsFuel marker fuel t = some t' :=
  uniqualizeFieldsFuel_mono h hf

/-- What the pass does to each column and each relation, in terms of the table before
and the table after. -/
theorem uniqualizeFieldsFuel_spec {marker : String} {fuel : Nat} {t t' : templateTable}
    (h : uniqualizeFieldsFuel marker fuel t = some t') :
    t' = { t with Columns := t'.Columns, Relations := t'.Relations } ∧
    t'.Columns.length = t.Columns.length ∧ t'.Relations.length = t.Relations.length ∧
    (∀ i c, t.Columns[i]? = some c → ∃ c', t'.Columns[i]? = some c' ∧
      c' = { c with FieldName := c'.FieldName } ∧
      Renamed (columnCandidate c.FieldName) 1 (c.FieldName ∈ columnNames (t.Columns.take i))
        (namesAtColumn t t' i) c.FieldName c'.FieldName) ∧
    (∀ i r, t.Relations[i]? = some r → ∃ r', t'.Relations[i]? = some r' ∧
      r' = { r with FieldName := r'.FieldName } ∧
      Renamed (relationCandidate marker r.FieldName) 0
        (r.FieldName ∈ columnNames t.Columns ∨ r.FieldName ∈ relationNames (t.Relations.take i))
        (namesAtRelation t t' i) r.FieldName r'.FieldName) := by
  obtain ⟨index, index', hc, hr, ht⟩ := uniqualizeFieldsFuel_some h
  obtain ⟨cnews, c1, c2, c3, c4⟩ := columnLoop_spec fuel _ _ _ _ hc
  obtain ⟨rnews, r1, r2, r3, r4⟩ := relationLoop_spec marker fuel _ _ _ _ _ hr
  simp only [List.nil_append] at c1 r1
  subst c1 r1
  refine ⟨ht, c2, r2, ?_, ?_⟩
  · intro i c hi
    obtain ⟨c', e1, e2, e3⟩ := c4 i c hi
    exact ⟨c', e1, e2, e3.congr (by simp) (by simp [namesAtColumn])⟩
  · intro i r hi
    obtain ⟨r', e1, e2, e3⟩ := r4 i r hi
    refine ⟨r', e1, e2, e3.congr ?_ (by simp [namesAtRelation])⟩
    have := c3 r.FieldName
    simp only [List.not_mem_nil, false_or] at this
    rw [this]
/-! ## The names carried when an element is visited -/

theorem lt_length_of_getElem? {α : Type} {l : List α} {i : Nat} {a : α}
    (h : l[i]? = some a) : i < l.length := by
  by_contra hn
  rw [List.getElem?_eq_none (by omega)] at h
  cases h

theorem mem_drop_of_getElem? {α : Type} {l : List α} {i : Nat} {a : α}
    (h : l[i]? = some a) : a ∈ l.drop i := by
  have hlt := lt_length_of_getElem? h
  have e : (l.drop i)[0]? = some a := by
    rw [List.getElem?_drop]
    simpa using h
  exact List.getElem?_mem e

theorem length_take_append_drop {α : Type} {l l' : List α} {i : Nat}
    (hlen : l'.length = l.length) (hi : i < l.length) :
    (l'.take i ++ l.drop i).length = l.length := by
  simp only [List.length_append, List.length_take, List.length_drop]
  omega

theorem column_suffix_le {t t' : templateTable} {i : Nat} {c : templateColumn} {k : Nat}
    (hlen : t'.Columns.length = t.Columns.length) (hi : t.Columns[i]? = some c)
    (hk : 1 ≤ k)
    (hbelow : ∀ j, 1 ≤ j → j < k → columnCandidate c.FieldName j ∈ namesAtColumn t t' i) :
    k ≤ t.Columns.length := by
  have hown : c.FieldName ∈ namesAtColumn t t' i := by
    unfold namesAtColumn columnNames
    exact List.mem_map.2 ⟨c, List.mem_append_right _ (mem_drop_of_getElem? hi), rfl⟩
  have hl : (namesAtColumn t t' i).length = t.Columns.length := by
    unfold namesAtColumn columnNames
    rw [List.length_map]
    exact length_take_append_drop hlen (lt_length_of_getElem? hi)
  have := taken_run_lt (columnCandidate_injective c.FieldName) (namesAtColumn t t' i) 1 (k - 1)
    c.FieldName hown (fun j => columnCandidate_ne_self c.FieldName j)
    (fun j h1 h2 => hbelow j h1 (by omega))
  omega

theorem relation_suffix_le {marker : String} {t t' : templateTable} {i : Nat}
    {r : templateRelation} {k : Nat}
    (hlc : t'.Columns.length = t.Columns.length)
    (hlr : t'.Relations.length = t.Relations.length) (hi : t.Relations[i]? = some r)
    (hbelow : ∀ j, 0 ≤ j → j < k →
      relationCandidate marker r.FieldName j ∈ namesAtRelation t t' i) :
    k ≤ t.Columns.length + t.Relations.length := by
  have hl : (namesAtRelation t t' i).length = t.Columns.length + t.Relations.length := by
    unfold namesAtRelation columnNames relationNames
    rw [List.length_append, List.length_map, List.length_map, hlc,
      length_take_append_drop hlr (lt_length_of_getElem? hi)]
  have := taken_run_le (relationCandidate_injective marker r.FieldName)
    (namesAtRelation t t' i) 0 k (fun j h1 h2 => hbelow j h1 (by omega))
  omega
/-! ## Template assembly -/

theorem take_succ_set {α : Type} (v : α) : ∀ (l : List α) (i : Nat), i < l.length →
    (l.set i v).take (i + 1) = l.take i ++ [v] := by
  intro l
  induction l with
  | nil => intro i h; simp at h
  | cons a l ih =>
    intro i h
    cases i with
    | zero => simp
    | succ i =>
      simp only [List.length_cons, Nat.add_lt_add_iff_right] at h
      simp [ih i h]

theorem assignLoop_eq {α β : Type} (f : α → β) : ∀ (xs : List α) (i : Nat) (out : List β),
    out.length = i + xs.length → assignLoop f i xs out = out.take i ++ xs.map f := by
  intro xs
  induction xs with
  | nil =>
    intro i out h
    simp only [List.length_nil, Nat.add_zero] at h
    simp [assignLoop, List.take_of_length_le (Nat.le_of_eq h)]
  | cons x xs ih =>
    intro i out h
    simp only [List.length_cons] at h
    rw [assignLoop, ih (i + 1) (out.set i (f x)) (by simp; omega),
      take_succ_set (f x) out i (by omega)]
    simp

theorem assignLoop_replicate {α β : Type} (f : α → β) (xs : List α) (d : β) :
    assignLoop f 0 xs (List.replicate xs.length d) = xs.map f := by
  rw [assignLoop_eq f xs 0 _ (by simp)]
  simp

theorem newTemplateTable_columns (m : ModelPackage) (table : Table) (options : Options) :
    (newTemplateTable m table options).Columns =
      table.Columns.map (fun column => newTemplateColumn m column
        (if m.TableHasMultiplePKs table then { options with KeepPK := true } else options)) := by
  simp only [newTemplateTable, assignLoop_replicate]

theorem newTemplateTable_relations (m : ModelPackage) (table : Table) (options : Options) :
    (newTemplateTable m table options).Relations =
      table.Relations.map (fun relation => newTemplateRelation m relation) := by
  simp only [newTemplateTable, assignLoop_replicate]

theorem packageLoop_spec (m : ModelPackage) (options : Options) :
    ∀ (tables : List Table) (i : Nat) (st : List String × List String × List templateTable),
    st.2.2.length = i + tables.length →
    ∃ r, packageLoop m options i tables st = some r ∧ r.2.2.length = st.2.2.length ∧
      (∀ j, j < i → r.2.2[j]? = st.2.2[j]?) ∧
      ∀ (j : Nat) (table : Table), tables[j]? = some table →
        ∃ t', uniqualizeFields m.NonUniqSuffix (newTemplateTable m table options) = some t' ∧
          r.2.2[i + j]? = some t' := by
  intro tables
  induction tables with
  | nil =>
    intro i st _
    exact ⟨st, rfl, rfl, fun _ _ => rfl, by simp⟩
  | cons table tables ih =>
    intro i st h
    obtain ⟨mImports, sImports, models⟩ := st
    simp only [List.length_cons] at h
    have hi : i < models.length := by omega
    obtain ⟨t', ht'⟩ := uniqualizeFields_isSome m.NonUniqSuffix (newTemplateTable m table options)
    have hget : (models.set i (newTemplateTable m table options)).getD i default =
        newTemplateTable m table options := by
      simp [List.getD_eq_getElem?_getD, List.getElem?_set_self hi]
    obtain ⟨r, hr1, hr2, hr3, hr4⟩ := ih (i + 1)
      (mImports ++ m.TableImports table, sImports ++ m.TableSearchImports table,
        (models.set i (newTemplateTable m table options)).set i t')
      (by simp; omega)
    refine ⟨r, ?_, by simpa using hr2, ?_, ?_⟩
    · rw [packageLoop]
      simp only [hget, ht']
      exact hr1
    · intro j hj
      rw [hr3 j (by omega)]
      simp only
      rw [List.getElem?_set_ne (by omega), List.getElem?_set_ne (by omega)]
    · intro j tbl hj
      cases j with
      | zero =>
        simp only [List.getElem?_cons_zero, Option.some.injEq] at hj
        subst hj
        refine ⟨t', ht', ?_⟩
        rw [Nat.add_zero, hr3 i (by omega)]
        simp only
        rw [List.getElem?_set_self (by simpa using hi)]
      | succ j =>
        simp only [List.getElem?_cons_succ] at hj
        obtain ⟨u, hu1, hu2⟩ := hr4 j tbl hj
        refine ⟨u, hu1, ?_⟩
        rw [← hu2]
        congr 1
        omega
/-! ## A worked example -/

/-- The pass on four columns and six relations: the second and fourth column collide with
the first and take the suffixes 2 and 3 (`A1` being a later column), the
relations that collide take the marker, with a number where the marker alone is
taken. -/
theorem uniqualizeFields_example :
    (uniqualizeFields "Rel"
      (mkTable ["A", "A", "A1", "A"] ["A1", "A", "A", "ARel", "B", "B"])).map fieldNames =
      some ["A", "A2", "A1", "A3", "A1Rel", "ARel1", "ARel2", "ARel", "B", "BRel"] := by
  decide
/-! ## Distinct names -/

theorem not_mem_take_of_nodup {α : Type} {l : List α} (h : l.Nodup) {i : Nat} {a : α}
    (hi : l[i]? = some a) : a ∉ l.take i := by
  have hd : a ∈ l.drop i := mem_drop_of_getElem? hi
  rw [← List.take_append_drop i l, List.nodup_append] at h
  intro ht
  exact h.2.2 ht hd

theorem columnNames_getElem? {Columns : List templateColumn} {i : Nat} {c : templateColumn}
    (h : Columns[i]? = some c) : (columnNames Columns)[i]? = some c.FieldName := by
  simp [columnNames, List.getElem?_map, h]

theorem relationNames_getElem? {Relations : List templateRelation} {i : Nat}
    {r : templateRelation} (h : Relations[i]? = some r) :
    (relationNames Relations)[i]? = some r.FieldName := by
  simp [relationNames, List.getElem?_map, h]

/-- The column loop keeps the names of the visited columns distinct, provided each of
them is in `index` or differs from every name still to visit. -/
theorem columnLoop_nodup (fuel : Nat) :
    ∀ (todo done : List templateColumn) (index : List String)
      (r : List templateColumn × List String),
    columnLoop fuel done todo index = some r →
    (columnNames done).Nodup →
    (∀ x, x ∈ columnNames done → x ∈ index ∨ x ∉ columnNames todo) →
    (columnNames r.1).Nodup := by
  intro todo
  induction todo with
  | nil =>
    intro done index r h hnd _
    simp only [columnLoop, Option.some.injEq] at h
    subst h
    exact hnd
  | cons column todo ih =>
    intro done index r h hnd hinv
    rw [columnLoop] at h
    by_cases hidx : column.FieldName ∈ index
    · simp only [hidx, not_true_eq_false, if_false] at h
      cases hc : couter (done ++ column :: todo) column fuel 1 with
      | none => rw [hc] at h; cases h
      | some k =>
        rw [hc] at h
        simp only at h
        rw [couter_eq_probe] at hc
        obtain ⟨_, _, p3, _⟩ := probe_some _ _ _ hc
        have hfree : columnCandidate column.FieldName k ∉
            columnNames (done ++ column :: todo) := by simpa using p3
        simp only [columnNames, List.map_append, List.map_cons, List.mem_append,
          List.mem_cons, not_or] at hfree
        refine ih _ _ _ h ?_ ?_
        · simp only [columnNames, List.map_append, List.map_cons, List.map_nil]
          rw [List.nodup_append]
          refine ⟨hnd, List.nodup_singleton _, ?_⟩
          intro x hx hx'
          rw [List.mem_singleton] at hx'
          subst hx'
          exact hfree.1 hx
        · intro x hx
          simp only [columnNames, List.map_append, List.map_cons, List.map_nil,
            List.mem_append, List.mem_singleton] at hx
          rcases hx with hx | hx
          · rcases hinv x hx with h1 | h1
            · exact Or.inl h1
            · refine Or.inr fun h2 => h1 ?_
              simp only [columnNames, List.map_cons, List.mem_cons]
              exact Or.inr h2
          · subst hx
            exact Or.inr hfree.2.2
    · simp only [hidx, not_false_eq_true, if_true] at h
      have hnew : column.FieldName ∉ columnNames done := by
        intro hx
        rcases hinv _ hx with h1 | h1
        · exact hidx h1
        · exact h1 (by simp [columnNames])
      refine ih _ _ _ h ?_ ?_
      · simp only [columnNames, List.map_append, List.map_cons, List.map_nil]
        rw [List.nodup_append]
        refine ⟨hnd, List.nodup_singleton _, ?_⟩
        intro x hx hx'
        rw [List.mem_singleton] at hx'
        subst hx'
        exact hnew hx
      · intro x hx
        simp only [columnNames, List.map_append, List.map_cons, List.map_nil,
          List.mem_append, List.mem_singleton] at hx
        rcases hx with hx | hx
        · rcases hinv x hx with h1 | h1
          · exact Or.inl (List.mem_cons_of_mem _ h1)
          · refine Or.inr fun h2 => h1 ?_
            simp only [columnNames, List.map_cons, List.mem_cons]
            exact Or.inr h2
        · subst hx
          exact Or.inl (List.mem_cons_self _ _)

/-- The relation loop keeps the names of the visited relations distinct, under the same
proviso as the column loop. -/
theorem relationLoop_nodup (marker : String) (fuel : Nat) (Columns : List templateColumn) :
    ∀ (todo done : List templateRelation) (index : List String)
      (r : List templateRelation × List String),
    relationLoop marker fuel Columns done todo index = some r →
    (relationNames done).Nodup →
    (∀ x, x ∈ relationNames done → x ∈ index ∨ x ∉ relationNames todo) →
    (relationNames r.1).Nodup := by
  intro todo
  induction todo with
  | nil =>
    intro done index r h hnd _
    simp only [relationLoop, Option.some.injEq] at h
    subst h
    exact hnd
  | cons relation todo ih =>
    intro done index r h hnd hinv
    rw [relationLoop] at h
    by_cases hidx : relation.FieldName ∈ index
    · simp only [hidx, not_true_eq_false, if_false] at h
      cases hc : router marker Columns (done ++ relation :: todo) relation fuel 0 with
      | none => rw [hc] at h; cases h
      | some k =>
        rw [hc] at h
        simp only at h
        rw [router_eq_probe] at hc
        obtain ⟨_, _, p3, _⟩ := probe_some _ _ _ hc
        have hfree : relationCandidate marker relation.FieldName k ∉
            columnNames Columns ++ relationNames (done ++ relation :: todo) := by
          simpa using p3
        simp only [relationNames, List.map_append, List.map_cons, List.mem_append,
          List.mem_cons, not_or] at hfree
        refine ih _ _ _ h ?_ ?_
        · simp only [relationNames, List.map_append, List.map_cons, List.map_nil]
          rw [List.nodup_append]
          refine ⟨hnd, List.nodup_singleton _, ?_⟩
          intro x hx hx'
          rw [List.mem_singleton] at hx'
          subst hx'
          exact hfree.2.1 hx
        · intro x hx
          simp only [relationNames, List.map_append, List.map_cons, List.map_nil,
            List.mem_append, List.mem_singleton] at hx
          rcases hx with hx | hx
          · rcases hinv x hx with h1 | h1
            · exact Or.inl h1
            · refine Or.inr fun h2 => h1 ?_
              simp only [relationNames, List.map_cons, List.mem_cons]
              exact Or.inr h2
          · subst hx
            exact Or.inr hfree.2.2.2
    · simp only [hidx, not_false_eq_true, if_true] at h
      have hnew : relation.FieldName ∉ relationNames done := by
        intro hx
        rcases hinv _ hx with h1 | h1
        · exact hidx h1
        · exact h1 (by simp [relationNames])
      refine ih _ _ _ h ?_ ?_
      · simp only [relationNames, List.map_append, List.map_cons, List.map_nil]
        rw [List.nodup_append]
        refine ⟨hnd, List.nodup_singleton _, ?_⟩
        intro x hx hx'
        rw [List.mem_singleton] at hx'
        subst hx'
        exact hnew hx
      · intro x hx
        simp only [relationNames, List.map_append, List.map_cons, List.map_nil,
          List.mem_append, List.mem_singleton] at hx
        rcases hx with hx | hx
        · rcases hinv x hx with h1 | h1
          · exact Or.inl (List.mem_cons_of_mem _ h1)
          · refine Or.inr fun h2 => h1 ?_
            simp only [relationNames, List.map_cons, List.mem_cons]
            exact Or.inr h2
        · subst hx
          exact Or.inl (List.mem_cons_self _ _)

/-- When `index` holds every name that a column carries, no relation ends with the name
of a column. -/
theorem relationLoop_disjoint (marker : String) (fuel : Nat) (Columns : List templateColumn) :
    ∀ (todo done : List templateRelation) (index : List String)
      (r : List templateRelation × List String),
    relationLoop marker fuel Columns done todo index = some r →
    (∀ x, x ∈ columnNames Columns → x ∈ index) →
    (∀ x, x ∈ relationNames done → x ∉ columnNames Columns) →
    ∀ x, x ∈ relationNames r.1 → x ∉ columnNames Columns := by
  intro todo
  induction todo with
  | nil =>
    intro done index r h _ hdis
    simp only [relationLoop, Option.some.injEq] at h
    subst h
    exact hdis
  | cons relation todo ih =>
    intro done index r h hidxc hdis
    rw [relationLoop] at h
    by_cases hidx : relation.FieldName ∈ index
    · simp only [hidx, not_true_eq_false, if_false] at h
      cases hc : router marker Columns (done ++ relation :: todo) relation fuel 0 with
      | none => rw [hc] at h; cases h
      | some k =>
        rw [hc] at h
        simp only at h
        rw [router_eq_probe] at hc
        obtain ⟨_, _, p3, _⟩ := probe_some _ _ _ hc
        have hfree : relationCandidate marker relation.FieldName k ∉
            columnNames Columns ++ relationNames (done ++ relation :: todo) := by
          simpa using p3
        rw [List.mem_append, not_or] at hfree
        refine ih _ _ _ h hidxc ?_
        intro x hx
        simp only [relationNames, List.map_append, List.map_cons, List.map_nil,
          List.mem_append, List.mem_singleton] at hx
        rcases hx with hx | hx
        · exact hdis x hx
        · subst hx
          exact hfree.1
    · simp only [hidx, not_false_eq_true, if_true] at h
      refine ih _ _ _ h (fun x hx => List.mem_cons_of_mem _ (hidxc x hx)) ?_
      intro x hx
      simp only [relationNames, List.map_append, List.map_cons, List.map_nil,
        List.mem_append, List.mem_singleton] at hx
      rcases hx with hx | hx
      · exact hdis x hx
      · subst hx
        exact fun hcol => hidx (hidxc _ hcol)
/-! ## Tables on which the pass has nothing to rename -/

theorem columns_unchanged {marker : String} {fuel : Nat} {t t' : templateTable}
    (h : uniqualizeFieldsFuel marker fuel t = some t')
    (hnd : (columnNames t.Columns).Nodup) : t'.Columns = t.Columns := by
  obtain ⟨_, hlc, _, hcol, _⟩ := uniqualizeFieldsFuel_spec h
  apply List.ext_getElem?
  intro n
  cases hn : t.Columns[n]? with
  | none =>
    rw [List.getElem?_eq_none_iff] at hn ⊢
    omega
  | some c =>
    obtain ⟨c', e1, e2, e3⟩ := hcol n c hn
    rw [e1]
    rcases e3 with ⟨_, hk⟩ | ⟨hcl, _⟩
    · rw [e2, hk]
    · have := not_mem_take_of_nodup hnd (columnNames_getElem? hn)
      rw [columnNames, ← List.map_take] at this
      exact absurd hcl this

theorem relations_unchanged {marker : String} {fuel : Nat} {t t' : templateTable}
    (h : uniqualizeFieldsFuel marker fuel t = some t')
    (hnd : (fieldNames t).Nodup) : t'.Relations = t.Relations := by
  obtain ⟨_, _, hlr, _, hrel⟩ := uniqualizeFieldsFuel_spec h
  unfold fieldNames at hnd
  rw [List.nodup_append] at hnd
  apply List.ext_getElem?
  intro n
  cases hn : t.Relations[n]? with
  | none =>
    rw [List.getElem?_eq_none_iff] at hn ⊢
    omega
  | some r =>
    obtain ⟨r', e1, e2, e3⟩ := hrel n r hn
    rw [e1]
    rcases e3 with ⟨_, hk⟩ | ⟨hcl, _⟩
    · rw [e2, hk]
    · exfalso
      rcases hcl with hcl | hcl
      · exact hnd.2.2 hcl (List.getElem?_mem (relationNames_getElem? hn))
      · have := not_mem_take_of_nodup hnd.2.1 (relationNames_getElem? hn)
        rw [relationNames, ← List.map_take] at this
        exact this hcl

theorem columnLoop_index {fuel : Nat} {Columns out : List templateColumn} {index : List String}
    (h : columnLoop fuel [] Columns [] = some (out, index)) :
    ∀ s, s ∈ index ↔ s ∈ columnNames Columns := by
  obtain ⟨_, _, _, h3, _⟩ := columnLoop_spec fuel _ _ _ _ h
  intro s
  simpa using h3 s

theorem relationLoop_index {marker : String} {fuel : Nat} {Columns : List templateColumn}
    {Relations out : List templateRelation} {index index' : List String}
    (h : relationLoop marker fuel Columns [] Relations index = some (out, index')) :
    ∀ s, s ∈ index' ↔ s ∈ index ∨ s ∈ relationNames Relations := by
  obtain ⟨_, _, _, h3, _⟩ := relationLoop_spec marker fuel Columns _ _ _ _ h
  exact h3
/-! ## Claims about `uniqualizeFields` -/

/-- C1 fails on the code.  The claim: after `uniqualizeFields` the field names of all
columns and relations together contain no duplicates.  On the table with the
columns `A`, `A` and the relation `A1` the pass renames the second column to
`A1` without recording that name in `index`, then accepts the relation `A1`
unchanged, so a column and a relation end with the same field name. -/
theorem C1_uniqualizeFields_leaves_duplicate :
    uniqualizeFields "Rel" (mkTable ["A", "A"] ["A1"]) = some (mkTable ["A", "A1"] ["A1"]) ∧
    fieldNames (mkTable ["A", "A1"] ["A1"]) = ["A", "A1", "A1"] ∧
    ¬ (fieldNames (mkTable ["A", "A1"] ["A1"])).Nodup := by
  decide

/-- C2: the columns that `uniqualizeFields` produces depend only on the column list.
Two tables with the same columns (whatever their relations and other fields)
both come out of the pass, with the same columns, and these are what the column
loop alone makes of the column list: the relation loop writes no column. -/
theorem C2_column_stability (marker : String) (t u : templateTable)
    (h : u.Columns = t.Columns) :
    ∃ t' u' index, uniqualizeFields marker t = some t' ∧ uniqualizeFields marker u = some u' ∧
      u'.Columns = t'.Columns ∧
      columnLoop (t.Columns.length + 1) [] t.Columns [] = some (t'.Columns, index) := by
  obtain ⟨t', ht⟩ := uniqualizeFields_isSome marker t
  obtain ⟨u', hu⟩ := uniqualizeFields_isSome marker u
  obtain ⟨it, _, hct, _, _⟩ := uniqualizeFieldsFuel_some ht
  obtain ⟨iu, _, hcu, _, _⟩ := uniqualizeFieldsFuel_some hu
  obtain ⟨r, hr⟩ := columnLoop_isSome (t.Columns.length + 1) t.Columns [] [] (by simp)
  have e1 := columnLoop_mono (show t.Columns.length + 1 ≤
    t.Columns.length + t.Relations.length + 1 by omega) _ _ _ _ hr
  have e2 := columnLoop_mono (show t.Columns.length + 1 ≤
    t.Columns.length + u.Relations.length + 1 by omega) _ _ _ _ hr
  rw [h] at hcu
  rw [hct] at e1
  rw [hcu] at e2
  simp only [Option.some.injEq] at e1 e2
  refine ⟨t', u', it, ht, hu, ?_, ?_⟩
  · rw [← e1] at e2
    exact congrArg Prod.fst e2
  · rw [hr, e1]

/-- C2 at the columns `A`, `A` with the relations `B` and with the relations `B`, `A1`. -/
theorem C2_column_stability_witness :
    (mkTable ["A", "A"] ["B", "A1"]).Columns = (mkTable ["A", "A"] ["B"]).Columns ∧
    ∃ t' u' index, uniqualizeFields "Rel" (mkTable ["A", "A"] ["B"]) = some t' ∧
      uniqualizeFields "Rel" (mkTable ["A", "A"] ["B", "A1"]) = some u' ∧
      u'.Columns = t'.Columns ∧
      columnLoop ((mkTable ["A", "A"] ["B"]).Columns.length + 1) []
        (mkTable ["A", "A"] ["B"]).Columns [] = some (t'.Columns, index) :=
  ⟨rfl, C2_column_stability "Rel" (mkTable ["A", "A"] ["B"]) (mkTable ["A", "A"] ["B", "A1"]) rfl⟩

/-- C3 fails on the code.  The claim: a second run of `uniqualizeFields` on the result of
a first run renames nothing.  The first run on the columns `A`, `A` and the
relation `A1` leaves the column `A1` and the relation `A1`; the second run finds
`A1` in `index` (now the derived name of a column) and renames the relation to
`A1Rel`. -/
theorem C3_second_run_renames :
    uniqualizeFields "Rel" (mkTable ["A", "A"] ["A1"]) = some (mkTable ["A", "A1"] ["A1"]) ∧
    uniqualizeFields "Rel" (mkTable ["A", "A1"] ["A1"]) =
      some (mkTable ["A", "A1"] ["A1Rel"]) ∧
    mkTable ["A", "A1"] ["A1Rel"] ≠ mkTable ["A", "A1"] ["A1"] := by
  decide

/-- C4 fails on the code.  The claim: a relation whose derived name equals the final field
name of some column is renamed to the derived name followed by the marker.  On
the columns `ID`, `ID` and the relation `ID1` the second column ends as `ID1`,
the derived name of the relation, and the relation keeps `ID1`: its final name
is its derived name and does not start with `ID1Rel`. -/
theorem C4_relation_not_renamed :
    ∃ t', uniqualizeFields "Rel" (mkTable ["ID", "ID"] ["ID1"]) = some t' ∧
      columnNames t'.Columns = ["ID", "ID1"] ∧
      relationNames t'.Relations = ["ID1"] ∧
      ¬ ("ID1" ++ "Rel").isPrefixOf "ID1" = true :=
  ⟨mkTable ["ID", "ID1"] ["ID1"], by decide, by decide, by decide, by decide⟩
/-- C5: the format of a relation rename.  A relation whose derived name `N` is the derived
name of a column or of an earlier relation ends as `N ++ marker` when no column
and no relation carries that name at that moment, and otherwise as
`N ++ marker ++ k` in decimal for the least `k ≥ 1` whose name nobody carries;
a relation whose derived name is that of no column and no earlier relation
keeps it. -/
theorem C5_relation_rename_format (marker : String) (t : templateTable) :
    ∃ t', uniqualizeFields marker t = some t' ∧
      ∀ (i : Nat) (r : templateRelation), t.Relations[i]? = some r →
        ∃ r' : templateRelation, t'.Relations[i]? = some r' ∧
        ((r.FieldName ∈ columnNames t.Columns ∨
            r.FieldName ∈ relationNames (t.Relations.take i)) →
          (r.FieldName ++ marker ∉ namesAtRelation t t' i →
            r'.FieldName = r.FieldName ++ marker) ∧
          (r.FieldName ++ marker ∈ namesAtRelation t t' i →
            ∃ k, 1 ≤ k ∧ r'.FieldName = r.FieldName ++ marker ++ Nat.repr k ∧
              r.FieldName ++ marker ++ Nat.repr k ∉ namesAtRelation t t' i ∧
              ∀ j, 1 ≤ j → j < k →
                r.FieldName ++ marker ++ Nat.repr j ∈ namesAtRelation t t' i)) ∧
        (¬ (r.FieldName ∈ columnNames t.Columns ∨
            r.FieldName ∈ relationNames (t.Relations.take i)) →
          r'.FieldName = r.FieldName) := by
  obtain ⟨t', ht⟩ := uniqualizeFields_isSome marker t
  refine ⟨t', ht, ?_⟩
  obtain ⟨_, _, _, _, hrel⟩ := uniqualizeFieldsFuel_spec ht
  intro i r hi
  obtain ⟨r', e1, _, e3⟩ := hrel i r hi
  refine ⟨r', e1, ?_, ?_⟩
  · intro hcl
    rcases e3 with ⟨hn, _⟩ | ⟨_, k, _, hk, hfree, hbelow⟩
    · exact absurd hcl hn
    · have c0 : relationCandidate marker r.FieldName 0 = r.FieldName ++ marker := by
        simp [relationCandidate]
      have cpos : ∀ j, 1 ≤ j →
          relationCandidate marker r.FieldName j = r.FieldName ++ marker ++ Nat.repr j := by
        intro j hj
        have : j ≠ 0 := by omega
        simp [relationCandidate, this]
      constructor
      · intro hfree0
        by_cases hk0 : k = 0
        · rw [hk, hk0, c0]
        · exact absurd (c0 ▸ hbelow 0 (le_refl _) (by omega)) hfree0
      · intro htaken
        have hk1 : 1 ≤ k := by
          by_contra hlt
          have hk0 : k = 0 := by omega
          rw [hk0, c0] at hfree
          exact hfree htaken
        refine ⟨k, hk1, by rw [hk, cpos k hk1], by rw [← cpos k hk1]; exact hfree, ?_⟩
        intro j hj hjk
        rw [← cpos j hj]
        exact hbelow j (by omega) hjk
  · intro hn
    rcases e3 with ⟨_, h⟩ | ⟨hcl, _⟩
    · exact h
    · exact absurd hcl hn

/-- C6: the format of a column rename.  A column whose derived name `N` is the derived
name of no earlier column keeps `N`; a column whose derived name is that of an
earlier column ends as `N ++ k` in decimal for the least `k ≥ 1` such that no
column carries that name at that moment (earlier columns under their final
names, the others under their derived names). -/
theorem C6_column_rename_format (marker : String) (t : templateTable) :
    ∃ t', uniqualizeFields marker t = some t' ∧
      ∀ (i : Nat) (c : templateColumn), t.Columns[i]? = some c →
        ∃ c' : templateColumn, t'.Columns[i]? = some c' ∧
        (c.FieldName ∉ columnNames (t.Columns.take i) → c'.FieldName = c.FieldName) ∧
        (c.FieldName ∈ columnNames (t.Columns.take i) →
          ∃ k, 1 ≤ k ∧ c'.FieldName = c.FieldName ++ Nat.repr k ∧
            c.FieldName ++ Nat.repr k ∉ namesAtColumn t t' i ∧
            ∀ j, 1 ≤ j → j < k → c.FieldName ++ Nat.repr j ∈ namesAtColumn t t' i) := by
  obtain ⟨t', ht⟩ := uniqualizeFields_isSome marker t
  refine ⟨t', ht, ?_⟩
  obtain ⟨_, _, _, hcol, _⟩ := uniqualizeFieldsFuel_spec ht
  intro i c hi
  obtain ⟨c', e1, _, e3⟩ := hcol i c hi
  refine ⟨c', e1, ?_, ?_⟩
  · intro hn
    rcases e3 with ⟨_, h⟩ | ⟨hcl, _⟩
    · exact h
    · exact absurd hcl hn
  · intro hcl
    rcases e3 with ⟨hn, _⟩ | ⟨_, k, hk1, hk, hfree, hbelow⟩
    · exact absurd hcl hn
    · exact ⟨k, hk1, hk, hfree, hbelow⟩

/-- C9: `uniqualizeFields` changes field names only.  The numbers of columns and relations
are kept, column `i` and relation `i` of the result are column `i` and
relation `i` of the input except for `FieldName`, and every other field of the
table is as before. -/
theorem C9_only_field_names_change (marker : String) (t : templateTable) :
    ∃ t', uniqualizeFields marker t = some t' ∧
      t'.Columns.length = t.Columns.length ∧ t'.Relations.length = t.Relations.length ∧
      (∀ (i : Nat) (c : templateColumn), t.Columns[i]? = some c →
        ∃ c' : templateColumn, t'.Columns[i]? = some c' ∧
        c'.FieldDBName = c.FieldDBName ∧ c'.FieldType = c.FieldType ∧
        c'.FieldTag = c.FieldTag ∧ c'.FieldComment = c.FieldComment ∧
        c'.IsSearchable = c.IsSearchable ∧ c'.SearchFieldType = c.SearchFieldType) ∧
      (∀ (i : Nat) (r : templateRelation), t.Relations[i]? = some r →
        ∃ r' : templateRelation, t'.Relations[i]? = some r' ∧
        r'.FieldType = r.FieldType ∧ r'.FieldTag = r.FieldTag ∧
        r'.FieldComment = r.FieldComment) ∧
      t'.StructName = t.StructName ∧ t'.StructTag = t.StructTag ∧
      t'.TableName = t.TableName ∧ t'.WithAlias = t.WithAlias ∧
      t'.TableAlias = t.TableAlias ∧ t'.JoinAlias = t.JoinAlias ∧
      t'.HasRelations = t.HasRelations ∧ t'.SearchStructName = t.SearchStructName := by
  obtain ⟨t', ht⟩ := uniqualizeFields_isSome marker t
  refine ⟨t', ht, ?_⟩
  obtain ⟨heq, hlc, hlr, hcol, hrel⟩ := uniqualizeFieldsFuel_spec ht
  refine ⟨hlc, hlr, ?_, ?_, ?_⟩
  · intro i c hi
    obtain ⟨c', e1, e2, _⟩ := hcol i c hi
    refine ⟨c', e1, ?_⟩
    rw [e2]
    exact ⟨rfl, rfl, rfl, rfl, rfl, rfl⟩
  · intro i r hi
    obtain ⟨r', e1, e2, _⟩ := hrel i r hi
    refine ⟨r', e1, ?_⟩
    rw [e2]
    exact ⟨rfl, rfl, rfl⟩
  · rw [heq]
    exact ⟨rfl, rfl, rfl, rfl, rfl, rfl, rfl, rfl⟩
/-- C10: `uniqualizeFields` terminates on every table.  With one candidate more than there
are columns and relations allowed to each probing loop the pass returns a
table, and every larger allowance returns the same table.  The `couter` loop
entered for a renamed column leaves with a suffix between 1 and the number of
columns, the `router` loop entered for a renamed relation with a suffix of at
most the number of columns plus the number of relations, and the stored names
are the candidates of these suffixes.  Distinct suffixes give distinct
candidates. -/
theorem C10_termination_and_suffix_bounds (marker : String) (t : templateTable) :
    ∃ t', uniqualizeFields marker t = some t' ∧
      (∀ fuel, t.Columns.length + t.Relations.length < fuel →
        uniqualizeFieldsFuel marker fuel t = some t') ∧
      (∀ (i : Nat) (c : templateColumn), t.Columns[i]? = some c →
        c.FieldName ∈ columnNames (t.Columns.take i) →
        ∃ k, 1 ≤ k ∧ k ≤ t.Columns.length ∧
          couter (t'.Columns.take i ++ t.Columns.drop i) c
            (t.Columns.length + t.Relations.length + 1) 1 = some k ∧
          t'.Columns[i]? = some { c with FieldName := columnCandidate c.FieldName k }) ∧
      (∀ (i : Nat) (r : templateRelation), t.Relations[i]? = some r →
        (r.FieldName ∈ columnNames t.Columns ∨
          r.FieldName ∈ relationNames (t.Relations.take i)) →
        ∃ k, k ≤ t.Columns.length + t.Relations.length ∧
          router marker t'.Columns (t'.Relations.take i ++ t.Relations.drop i) r
            (t.Columns.length + t.Relations.length + 1) 0 = some k ∧
          t'.Relations[i]? =
            some { r with FieldName := relationCandidate marker r.FieldName k }) ∧
      (∀ N, Function.Injective (columnCandidate N)) ∧
      (∀ N, Function.Injective (relationCandidate marker N)) := by
  obtain ⟨t', ht⟩ := uniqualizeFields_isSome marker t
  refine ⟨t', ht, fun fuel hf => uniqualizeFieldsFuel_eq ht fuel hf, ?_, ?_,
    columnCandidate_injective, relationCandidate_injective marker⟩
  · obtain ⟨_, hlc, _, hcol, _⟩ := uniqualizeFieldsFuel_spec ht
    intro i c hi hcl
    obtain ⟨c', e1, e2, e3⟩ := hcol i c hi
    rcases e3 with ⟨hn, _⟩ | ⟨_, k, hk1, hk, hfree, hbelow⟩
    · exact absurd hcl hn
    · have hle := column_suffix_le hlc hi hk1 hbelow
      refine ⟨k, hk1, hle, ?_, ?_⟩
      · rw [couter_eq_probe]
        refine probe_least _ _ _ hk1 (by omega) ?_ ?_
        · simpa [namesAtColumn] using hfree
        · intro j h1 h2
          simpa [namesAtColumn] using hbelow j h1 h2
      · rw [e1, e2, hk]
  · obtain ⟨_, hlc, hlr, _, hrel⟩ := uniqualizeFieldsFuel_spec ht
    intro i r hi hcl
    obtain ⟨r', e1, e2, e3⟩ := hrel i r hi
    rcases e3 with ⟨hn, _⟩ | ⟨_, k, hk0, hk, hfree, hbelow⟩
    · exact absurd hcl hn
    · have hle := relation_suffix_le hlc hlr hi hbelow
      refine ⟨k, hle, ?_, ?_⟩
      · rw [router_eq_probe]
        refine probe_least _ _ _ hk0 (by omega) ?_ ?_
        · simpa [namesAtRelation] using hfree
        · intro j h1 h2
          simpa [namesAtRelation] using hbelow j h1 h2
      · rw [e1, e2, hk]
/-! ## Claims about template assembly -/

/-- C7: the composite primary key override.  For a table with multiple primary keys
`newTemplateTable` gives the same result as with `KeepPK` set, and the field
name of each column is `StructFieldName(true)`; for a table without, the field
name of each column is `StructFieldName(options.KeepPK)`. -/
theorem C7_composite_pk_override (m : ModelPackage) (table : Table) (options : Options) :
    (m.TableHasMultiplePKs table = true →
      newTemplateTable m table options =
        newTemplateTable m table { options with KeepPK := true } ∧
      ∀ (i : Nat) (column : Column), table.Columns[i]? = some column →
        ∃ c : templateColumn, (newTemplateTable m table options).Columns[i]? = some c ∧
          c.FieldName = m.ColumnStructFieldName column true) ∧
    (m.TableHasMultiplePKs table = false →
      ∀ (i : Nat) (column : Column), table.Columns[i]? = some column →
        ∃ c : templateColumn, (newTemplateTable m table options).Columns[i]? = some c ∧
          c.FieldName = m.ColumnStructFieldName column options.KeepPK) := by
  constructor
  · intro h
    constructor
    · simp only [newTemplateTable, h, if_true]
    · intro i column hi
      rw [newTemplateTable_columns, h]
      simp only [if_true, List.getElem?_map, hi, Option.map_some']
      exact ⟨_, rfl, rfl⟩
  · intro h
    intro i column hi
    rw [newTemplateTable_columns, h]
    simp only [Bool.false_eq_true, if_false, List.getElem?_map, hi, Option.map_some']
    exact ⟨_, rfl, rfl⟩

/-- C7 at a table with the composite primary key (`a`, `b`) and at a table with the single
primary key `a`, both with `KeepPK` off: the first keeps the names `a`, `b`,
`c`, the second names its primary key `ID`. -/
theorem C7_composite_pk_override_witness :
    sampleModel.TableHasMultiplePKs linkTable = true ∧
    sampleModel.TableHasMultiplePKs plainTable = false ∧
    newTemplateTable sampleModel linkTable (sampleOptions false) =
      newTemplateTable sampleModel linkTable (sampleOptions true) ∧
    columnNames (newTemplateTable sampleModel linkTable (sampleOptions false)).Columns =
      ["a", "b", "c"] ∧
    columnNames (newTemplateTable sampleModel plainTable (sampleOptions false)).Columns =
      ["ID", "ID", "c"] ∧
    (∀ (i : Nat) (column : Column), plainTable.Columns[i]? = some column →
      ∃ c : templateColumn,
        (newTemplateTable sampleModel plainTable (sampleOptions false)).Columns[i]? = some c ∧
        c.FieldName = sampleModel.ColumnStructFieldName column false) :=
  ⟨by decide, by decide,
    ((C7_composite_pk_override sampleModel linkTable (sampleOptions false)).1 (by decide)).1,
    by decide, by decide,
    (C7_composite_pk_override sampleModel plainTable (sampleOptions false)).2 (by decide)⟩

/-- C8: `newTemplatePackage` returns one model per input table, in input order: the
number of models is the number of tables, and model `i` is what
`uniqualizeFields` makes of `newTemplateTable(tables[i], options)`, renames
included. -/
theorem C8_newTemplatePackage_models (m : ModelPackage) (tables : List Table)
    (options : Options) :
    ∃ pkg, newTemplatePackage m tables options = some pkg ∧
      pkg.Models.length = tables.length ∧
      ∀ (i : Nat) (table : Table), tables[i]? = some table →
        ∃ t', uniqualizeFields m.NonUniqSuffix (newTemplateTable m table options) = some t' ∧
          pkg.Models[i]? = some t' := by
  obtain ⟨r, hr1, hr2, _, hr4⟩ := packageLoop_spec m options tables 0
    ([], [], List.replicate tables.length default) (by simp)
  obtain ⟨mImports, sImports, models⟩ := r
  refine ⟨{ Package := options.Package
            HasImports := decide ((m.UniqStrings mImports).length > 0)
            Imports := m.UniqStrings mImports
            Models := models
            HasSearchImports :=
              options.StrictSearch && decide ((m.UniqStrings sImports).length > 0)
            SearchImports := m.UniqStrings sImports },
    by simp only [newTemplatePackage, hr1], by simpa using hr2, ?_⟩
  intro i table hi
  obtain ⟨t', h1, h2⟩ := hr4 i table hi
  exact ⟨t', h1, by simpa using h2⟩
/-! ## Claims about distinct names -/

/-- C11: when the derived field names of the columns are pairwise distinct,
`uniqualizeFields` leaves every column as it is and, whatever the relations,
the field names of columns and relations together end pairwise distinct. -/
theorem C11_unique_when_columns_distinct (marker : String) (t : templateTable)
    (h : (columnNames t.Columns).Nodup) :
    ∃ t', uniqualizeFields marker t = some t' ∧ t'.Columns = t.Columns ∧
      (fieldNames t').Nodup := by
  obtain ⟨t', ht⟩ := uniqualizeFields_isSome marker t
  have hcols := columns_unchanged ht h
  refine ⟨t', ht, hcols, ?_⟩
  obtain ⟨index, index', hc, hr, _⟩ := uniqualizeFieldsFuel_some ht
  have hidx := columnLoop_index hc
  have hnd := relationLoop_nodup marker _ t'.Columns _ _ _ _ hr (by simp [relationNames])
    (by simp [relationNames])
  have hdis := relationLoop_disjoint marker _ t'.Columns _ _ _ _ hr
    (fun x hx => (hidx x).2 (hcols ▸ hx)) (by simp [relationNames])
  unfold fieldNames
  rw [List.nodup_append]
  refine ⟨hcols ▸ h, hnd, ?_⟩
  intro x hx hx'
  exact hdis x hx' hx

/-- C11 at the table `user` of `TestDo`, built by `newTemplateTable` with the example
model and `KeepPK` off: the columns `ID`, `email`, `locationId`, `companyId`,
`createdAt` stay, and with the relations `locations`, `companies` all seven
names are distinct. -/
theorem C11_unique_when_columns_distinct_witness :
    columnNames (newTemplateTable sampleModel usersTable (sampleOptions false)).Columns =
      ["ID", "email", "locationId", "companyId", "createdAt"] ∧
    relationNames (newTemplateTable sampleModel usersTable (sampleOptions false)).Relations =
      ["locations", "companies"] ∧
    (columnNames (newTemplateTable sampleModel usersTable (sampleOptions false)).Columns).Nodup ∧
    ∃ t', uniqualizeFields "Rel" (newTemplateTable sampleModel usersTable (sampleOptions false))
        = some t' ∧
      t'.Columns = (newTemplateTable sampleModel usersTable (sampleOptions false)).Columns ∧
      (fieldNames t').Nodup :=
  ⟨by decide, by decide, by decide,
    C11_unique_when_columns_distinct "Rel"
      (newTemplateTable sampleModel usersTable (sampleOptions false)) (by decide)⟩

/-- C12: for every table, duplicate derived column names included, the column field names
end pairwise distinct among themselves and the relation field names end
pairwise distinct among themselves, although `index` only ever holds derived
names: after the column loop it holds exactly the derived names of the
columns, after the relation loop those and the derived names of the
relations. -/
theorem C12_columns_distinct_and_relations_distinct (marker : String) (t : templateTable) :
    ∃ t', uniqualizeFields marker t = some t' ∧
      (columnNames t'.Columns).Nodup ∧ (relationNames t'.Relations).Nodup ∧
      ∃ index index',
        columnLoop (t.Columns.length + t.Relations.length + 1) [] t.Columns [] =
          some (t'.Columns, index) ∧
        relationLoop marker (t.Columns.length + t.Relations.length + 1) t'.Columns []
          t.Relations index = some (t'.Relations, index') ∧
        (∀ s, s ∈ index ↔ s ∈ columnNames t.Columns) ∧
        (∀ s, s ∈ index' ↔ s ∈ columnNames t.Columns ∨ s ∈ relationNames t.Relations) := by
  obtain ⟨t', ht⟩ := uniqualizeFields_isSome marker t
  obtain ⟨index, index', hc, hr, _⟩ := uniqualizeFieldsFuel_some ht
  have hidx := columnLoop_index hc
  have hidx' := relationLoop_index hr
  refine ⟨t', ht, ?_, ?_, index, index', hc, hr, hidx, ?_⟩
  · exact columnLoop_nodup _ _ _ _ _ hc (by simp [columnNames]) (by simp [columnNames])
  · exact relationLoop_nodup marker _ t'.Columns _ _ _ _ hr (by simp [relationNames])
      (by simp [relationNames])
  · intro s
    rw [hidx' s, hidx s]

/-- C13: `uniqualizeFields` is the identity on a table whose column and relation field
names are all pairwise distinct. -/
theorem C13_identity_on_collision_free (marker : String) (t : templateTable)
    (h : (fieldNames t).Nodup) : uniqualizeFields marker t = some t := by
  obtain ⟨t', ht⟩ := uniqualizeFields_isSome marker t
  have hc : (columnNames t.Columns).Nodup := by
    unfold fieldNames at h
    exact (List.nodup_append.1 h).1
  have e1 := columns_unchanged ht hc
  have e2 := relations_unchanged ht h
  obtain ⟨heq, _⟩ := uniqualizeFieldsFuel_spec ht
  rw [ht, heq, e1, e2]

/-- C13 at the columns `A`, `B` with the relations `C`, `D`. -/
theorem C13_identity_on_collision_free_witness :
    (fieldNames (mkTable ["A", "B"] ["C", "D"])).Nodup ∧
    uniqualizeFields "Rel" (mkTable ["A", "B"] ["C", "D"]) =
      some (mkTable ["A", "B"] ["C", "D"]) :=
  ⟨by decide, C13_identity_on_collision_free "Rel" (mkTable ["A", "B"] ["C", "D"]) (by decide)⟩

/-- C14: `newTemplateTable` keeps the shape of its input.  The result has as many columns
and relations as the table, column `i` is `newTemplateColumn` of input column
`i` (so its `FieldDBName` is that column's `Name`), relation `i` is
`newTemplateRelation` of input relation `i`, `HasRelations` holds exactly when
the table has a relation, and `WithAlias` is the negation of
`options.NoAlias`. -/
theorem C14_newTemplateTable_shape (m : ModelPackage) (table : Table) (options : Options) :
    (newTemplateTable m table options).Columns.length = table.Columns.length ∧
    (newTemplateTable m table options).Relations.length = table.Relations.length ∧
    (∀ (i : Nat) (column : Column), table.Columns[i]? = some column →
      ∃ c : templateColumn, (newTemplateTable m table options).Columns[i]? = some c ∧
        c.FieldDBName = column.Name ∧
        c = newTemplateColumn m column
          (if m.TableHasMultiplePKs table then { options with KeepPK := true } else options)) ∧
    (∀ (i : Nat) (relation : Relation), table.Relations[i]? = some relation →
      (newTemplateTable m table options).Relations[i]? =
        some (newTemplateRelation m relation)) ∧
    ((newTemplateTable m table options).HasRelations = true ↔ 0 < table.Relations.length) ∧
    (newTemplateTable m table options).WithAlias = !options.NoAlias := by
  refine ⟨?_, ?_, ?_, ?_, ?_, ?_⟩
  · rw [newTemplateTable_columns, List.length_map]
  · rw [newTemplateTable_relations, List.length_map]
  · intro i column hi
    rw [newTemplateTable_columns]
    simp only [List.getElem?_map, hi, Option.map_some']
    exact ⟨_, rfl, rfl, rfl⟩
  · intro i relation hi
    rw [newTemplateTable_relations]
    simp only [List.getElem?_map, hi, Option.map_some']
  · have := newTemplateTable_relations m table options
    simp only [newTemplateTable] at this ⊢
    rw [this]
    simp
  · simp only [newTemplateTable]
    split <;> rfl
end generator
